import Mathlib

/-!
Verification of the comLedger highlight-matching and rendering engine,
CSV/PDF export content builders, the settings persistence round-trip and
the transcript-list invariant, as a shallow embedding of the TypeScript
sources in Lean 4.

Strings are modelled as `List Char` (`Str`).  JavaScript's
`String.prototype.toLowerCase` is modelled character-wise with
`Char.toLower` (ASCII case mapping, which covers the palette and rule
words in scope), and the regex `/(\S+|\s+)/g` tokenisation is modelled by
`tokenize`, which splits a string into maximal runs of whitespace and
non-whitespace characters.
-/

abbrev Str := List Char

/-- JavaScript's `\s` character class (the whitespace set used by the
tokenising regex `/(\S+|\s+)/g` and by `/^\s+$/`). -/
def isJSWhitespace (c : Char) : Bool :=
  c = ' ' || c = '\t' || c = '\n' || c = '\r' ||
  c = '\x0b' || c = '\x0c' || c = '\u00a0' || c = '\u1680' ||
  ('\u2000' ≤ c && c ≤ '\u200a') || c = '\u2028' || c = '\u2029' ||
  c = '\u202f' || c = '\u205f' || c = '\u3000' || c = '\ufeff'

/-- `text.match(/(\S+|\s+)/g) || []`: split a string into maximal runs of
non-whitespace (`\S+`) and whitespace (`\s+`) characters, in order. -/
def tokenize : Str → List Str
  | [] => []
  | c :: cs =>
    match tokenize cs with
    | [] => [[c]]
    | t :: ts =>
      if isJSWhitespace c = isJSWhitespace (t.headD c) then
        (c :: t) :: ts
      else
        [c] :: t :: ts

/-- `/^\s+$/.test(token)`: the token is non-empty and all whitespace. -/
def isWhitespaceToken (token : Str) : Bool :=
  !token.isEmpty && token.all isJSWhitespace

/-- A user-defined word highlighting rule (interface `HighlightRule` in
`useSettings`). -/
structure HighlightRule where
  id : Str
  word : Str
  color : Str
deriving DecidableEq, Repr

/-- One entry of the predefined colour palette. -/
structure HighlightColor where
  name : Str
  nameFi : Str
  value : Str
  textColor : Str
deriving DecidableEq, Repr

/-- The `HIGHLIGHT_COLORS` palette from `highlightUtils`. -/
def HIGHLIGHT_COLORS : List HighlightColor :=
  [ ⟨"Yellow".data, "Keltainen".data, "#FFEB3B".data, "#000000".data⟩,
    ⟨"Green".data, "Vihreä".data, "#4CAF50".data, "#FFFFFF".data⟩,
    ⟨"Blue".data, "Sininen".data, "#2196F3".data, "#FFFFFF".data⟩,
    ⟨"Red".data, "Punainen".data, "#F44336".data, "#FFFFFF".data⟩,
    ⟨"Purple".data, "Violetti".data, "#9C27B0".data, "#FFFFFF".data⟩,
    ⟨"Orange".data, "Oranssi".data, "#FF9800".data, "#FFFFFF".data⟩,
    ⟨"Pink".data, "Pinkki".data, "#E91E63".data, "#FFFFFF".data⟩,
    ⟨"Cyan".data, "Syaani".data, "#00BCD4".data, "#FFFFFF".data⟩,
    ⟨"Lime".data, "Limetti".data, "#CDDC39".data, "#000000".data⟩,
    ⟨"Teal".data, "Turkoosi".data, "#009688".data, "#FFFFFF".data⟩ ]

/-- `HIGHLIGHT_COLORS.find(c => c.value === rule.color)?.textColor || '#000000'`. -/
def textColorFor (color : Str) : Str :=
  match HIGHLIGHT_COLORS.find? (fun c => c.value = color) with
  | some c => c.textColor
  | none => "#000000".data

/-- Result of rendering one token in the React version `applyHighlights`:
either a plain text node or a highlight `<span>` carrying the token, the
rule's colour, the derived text colour, and the partial-match flag (which
attaches the `˚` indicator child). -/
inductive ReactNode where
  | text (s : Str)
  | highlightSpan (token : Str) (color : Str) (textColor : Str) (isPartialMatch : Bool)
deriving DecidableEq, Repr

def ReactNode.isHighlight : ReactNode → Bool
  | .text _ => false
  | .highlightSpan _ _ _ _ => true

/-- The token string carried by a node (its rendered text content with the
span markup and the partial indicator stripped away). -/
def ReactNode.tokenText : ReactNode → Str
  | .text s => s
  | .highlightSpan token _ _ _ => token

/-- JavaScript's `s.includes(search)`: `search` occurs as a contiguous
substring of `s`. -/
def jsIncludes (s search : Str) : Bool := decide (search <:+: s)

/-- The inner rule loop of `applyHighlights` (lines 87-139): try each rule
in order; an exact case-insensitive match wins as a non-partial highlight,
otherwise with partial matching enabled a substring match wins as a
partial highlight; the first matching rule breaks the loop, and if no rule
matches the token is pushed as plain text. -/
def applyHighlightsLoop (partialMatch : Bool) (token : Str) :
    List HighlightRule → ReactNode
  | [] => .text token
  | rule :: rest =>
    let ruleWord := rule.word.map Char.toLower
    let tokenLower := token.map Char.toLower
    if tokenLower = ruleWord then
      .highlightSpan token rule.color (textColorFor rule.color) false
    else if partialMatch && jsIncludes tokenLower ruleWord then
      .highlightSpan token rule.color (textColorFor rule.color) true
    else
      applyHighlightsLoop partialMatch token rest

/-- `applyHighlights` from `highlightUtils`: returns `[text]` when there
are no rules; otherwise maps every token (whitespace tokens pass through
unchanged) and falls back to `[text]` when no parts were produced. -/
def applyHighlights (text : Str) (rules : List HighlightRule)
    (partialMatch : Bool) : List ReactNode :=
  if rules.length = 0 then [.text text]
  else
    let tokens := tokenize text
    let parts := tokens.map (fun token =>
      if isWhitespaceToken token then ReactNode.text token
      else applyHighlightsLoop partialMatch token rules)
    if parts.length > 0 then parts else [.text text]

/-- The `˚` partial-match indicator span emitted by
`applyHighlightsToHTML`. -/
def partialIndicatorHTML : Str :=
  "<span style=\"position: absolute; top: -7px; right: -5px; font-size: 2em; line-height: 1; opacity: 0.7;\">˚</span>".data

/-- The highlight `<span>` markup emitted by `applyHighlightsToHTML`
(line 222), with the indicator appended exactly when the match was
partial. -/
def spanHTML (token : Str) (color : Str) (textColor : Str)
    (isPartialMatch : Bool) : Str :=
  "<span style=\"background-color: ".data ++ color ++
  "; color: ".data ++ textColor ++
  "; padding: 2px 4px; border-radius: 3px; font-weight: 600; position: relative; display: inline-block;\">".data ++
  token ++ (if isPartialMatch then partialIndicatorHTML else []) ++
  "</span>".data

/-- The inner rule loop of `applyHighlightsToHTML` (lines 201-224): same
matching logic as `applyHighlightsLoop`, returning the span markup or, if
no rule matches, the token unchanged. -/
def applyHighlightsToHTMLLoop (partialMatch : Bool) (token : Str) :
    List HighlightRule → Str
  | [] => token
  | rule :: rest =>
    let ruleWord := rule.word.map Char.toLower
    let tokenLower := token.map Char.toLower
    if tokenLower = ruleWord then
      spanHTML token rule.color (textColorFor rule.color) false
    else if partialMatch && jsIncludes tokenLower ruleWord then
      spanHTML token rule.color (textColorFor rule.color) true
    else
      applyHighlightsToHTMLLoop partialMatch token rest

/-- `applyHighlightsToHTML` from `highlightUtils`: returns the text
unchanged when there are no rules; otherwise maps every token (whitespace
tokens pass through) and joins the pieces back together. -/
def applyHighlightsToHTML (text : Str) (rules : List HighlightRule)
    (partialMatch : Bool) : Str :=
  if rules.length = 0 then text
  else
    ((tokenize text).map (fun token =>
      if isWhitespaceToken token then token
      else applyHighlightsToHTMLLoop partialMatch token rules)).flatten

/-- Render a React node as the corresponding HTML string. -/
def renderNode : ReactNode → Str
  | .text s => s
  | .highlightSpan token color textColor p => spanHTML token color textColor p

/-- JavaScript's `String.prototype.trim`: strip leading and trailing
whitespace. -/
def jsTrim (s : Str) : Str :=
  ((s.dropWhile isJSWhitespace).reverse.dropWhile isJSWhitespace).reverse

/-- `addHighlightRule` from `useSettings` (lines 147-156): append a rule
whose word is the trimmed input (the generated `Date.now()` id is passed
in as a parameter). -/
def addHighlightRule (rules : List HighlightRule) (id word color : Str) :
    List HighlightRule :=
  rules ++ [⟨id, jsTrim word, color⟩]

/-- One confirmed transcript entry kept in `transcriptsWithTimestamps`
(`page.tsx`). -/
structure TranscriptEntry where
  id : Str
  text : Str
  timestamp : Str
deriving DecidableEq, Repr

/-- The `onCommittedTranscriptWithTimestamps` state update
(`page.tsx` lines 165-174): append the committed text unless an entry
with the same text already exists. -/
def commitTranscript (prev : List TranscriptEntry) (id text timestamp : Str) :
    List TranscriptEntry :=
  if prev.any (fun t => t.text = text) then prev
  else prev ++ [⟨id, text, timestamp⟩]

/-- The `onDisconnect` auto-save of the last partial transcript
(`page.tsx` lines 110-136): when the pending partial text is non-empty
and not whitespace-only, append it unless an entry with the same text
already exists. -/
def saveOnDisconnect (prev : List TranscriptEntry) (pendingText id timestamp : Str) :
    List TranscriptEntry :=
  if !pendingText.isEmpty && !(jsTrim pendingText).isEmpty then
    if prev.any (fun t => t.text = pendingText) then prev
    else prev ++ [⟨id, pendingText, timestamp⟩]
  else prev

/-- `handleClearTranscripts` (`page.tsx` line 446). -/
def clearTranscripts (_prev : List TranscriptEntry) : List TranscriptEntry := []

/-- The states of `transcriptsWithTimestamps` reachable from the initial
empty list through the three state updates in `page.tsx`. -/
inductive TranscriptsReachable : List TranscriptEntry → Prop where
  | init : TranscriptsReachable []
  | committed {s : List TranscriptEntry} (id text timestamp : Str) :
      TranscriptsReachable s → TranscriptsReachable (commitTranscript s id text timestamp)
  | disconnected {s : List TranscriptEntry} (pendingText id timestamp : Str) :
      TranscriptsReachable s → TranscriptsReachable (saveOnDisconnect s pendingText id timestamp)
  | cleared {s : List TranscriptEntry} :
      TranscriptsReachable s → TranscriptsReachable (clearTranscripts s)

/-- A transcript row handed to the export utilities
(interface `TranscriptItem` in `exportUtils`). -/
structure TranscriptItem where
  timestamp : Str
  text : Str
deriving DecidableEq, Repr

/-- JavaScript's `Array.prototype.join(sep)` on string arrays. -/
def joinJS (sep : Str) : List Str → Str
  | [] => []
  | [s] => s
  | s :: rest => s ++ sep ++ joinJS sep rest

/-- `item.text.replace(/"/g, '""')`: double every double quote. -/
def csvEscapeQuotes (text : Str) : Str :=
  text.flatMap (fun c => if c = '"' then ['"', '"'] else [c])

/-- The CSV blob content built by `exportAsCSV` (`exportUtils` lines
48-62): header row and one row per transcript, the text cell quoted with
quotes doubled, joined by newlines, with a UTF-8 BOM prefix. -/
def exportAsCSVContent (transcripts : List TranscriptItem) : Str :=
  let headers := ["Timestamp".data, "Text".data]
  let rows := transcripts.map (fun item =>
    [item.timestamp, '"' :: csvEscapeQuotes item.text ++ ['"']])
  let csvContent := joinJS ['\n'] (joinJS [','] headers :: rows.map (fun row => joinJS [','] row))
  '\ufeff' :: csvContent

/-- The CSV content as the spec sentence describes it: the header line
`Timestamp,Text` followed by one line per transcript item in order, each
line being the item's timestamp, a comma, and the item's text wrapped in
double quotes with embedded quotes doubled, all prefixed with the BOM. -/
def exportAsCSVContentSpec (transcripts : List TranscriptItem) : Str :=
  '\ufeff' :: joinJS ['\n']
    ("Timestamp,Text".data ::
      transcripts.map (fun item =>
        item.timestamp ++ ',' :: '"' :: csvEscapeQuotes item.text ++ ['"']))

/-- The interface language (`type Language = 'en' | 'fi'`). -/
inductive UILanguage where
  | en
  | fi
deriving DecidableEq, Repr

/-- The string code stored for a language by `updateLanguage`
(`localStorage.setItem('language', lang)`). -/
def languageCode : UILanguage → Str
  | .en => "en".data
  | .fi => "fi".data

/-- The load-on-mount logic for the `language` key (`useSettings` lines
67-70): restore the saved value only when it is `'en'` or `'fi'`,
otherwise keep the initial `'en'`. -/
def loadLanguage (saved : Option Str) : UILanguage :=
  match saved with
  | some s => if s = "en".data then .en else if s = "fi".data then .fi else .en
  | none => .en

/-- JavaScript's `String(value)` on a boolean. -/
def jsStringOfBool (value : Bool) : Str :=
  if value then "true".data else "false".data

/-- The load-on-mount logic shared by the boolean settings
(`echo_cancellation`, `noise_suppression`, `partial_match_highlight`,
`newest_first`): when a value is stored, the restored flag is the
comparison of the stored string with `'true'`; otherwise the initial
default is kept. -/
def loadBoolSetting (dflt : Bool) (saved : Option Str) : Bool :=
  match saved with
  | some s => decide (s = "true".data)
  | none => dflt

/-- The load-on-mount logic for `selected_microphone_id` (`useSettings`
lines 87-90): a stored non-empty (truthy) string is restored, otherwise
the initial empty string is kept. -/
def loadMicrophoneId (saved : Option Str) : Str :=
  match saved with
  | some s => if s.isEmpty then [] else s
  | none => []

/-- The hexadecimal digit characters used by `JSON.stringify` in
`\u00xx` escapes (lowercase). -/
def hexDigitChar (n : Nat) : Char :=
  if n < 10 then Char.ofNat (48 + n) else Char.ofNat (87 + n)

/-- Modelled from the spec: the browser built-in `JSON.stringify`
escaping of one character inside a string literal (the repository only
calls the platform's JSON, whose code is not part of src/). -/
def escapeJSONChar (c : Char) : Str :=
  if c = '"' then ['\\', '"']
  else if c = '\\' then ['\\', '\\']
  else if c = '\x08' then ['\\', 'b']
  else if c = '\t' then ['\\', 't']
  else if c = '\n' then ['\\', 'n']
  else if c = '\x0c' then ['\\', 'f']
  else if c = '\r' then ['\\', 'r']
  else if c.toNat < 32 then
    ['\\', 'u', '0', '0', hexDigitChar (c.toNat / 16), hexDigitChar (c.toNat % 16)]
  else [c]

/-- A JSON string literal as `JSON.stringify` renders it. -/
def jsonStringLit (s : Str) : Str := '"' :: s.flatMap escapeJSONChar ++ ['"']

/-- `JSON.stringify` of one `HighlightRule` object (properties in
insertion order `id`, `word`, `color`). -/
def jsonRuleObject (r : HighlightRule) : Str :=
  '\x7b' :: "\"id\":".data ++ jsonStringLit r.id ++
  ",\"word\":".data ++ jsonStringLit r.word ++
  ",\"color\":".data ++ jsonStringLit r.color ++ ['\x7d']

/-- `JSON.stringify(rules)`: the string stored under `highlight_rules`
by `addHighlightRule` / `removeHighlightRule`. -/
def stringifyRules (rs : List HighlightRule) : Str :=
  '[' :: joinJS [','] (rs.map jsonRuleObject) ++ [']']

/-- Value of one hexadecimal digit character. -/
def hexCharVal (c : Char) : Option Nat :=
  if '0' ≤ c ∧ c ≤ '9' then some (c.toNat - 48)
  else if 'a' ≤ c ∧ c ≤ 'f' then some (c.toNat - 87)
  else if 'A' ≤ c ∧ c ≤ 'F' then some (c.toNat - 55)
  else none

/-- Modelled from the spec: the body of a JSON string literal as
`JSON.parse` reads it (the opening quote already consumed): characters up
to the closing quote, with backslash escapes decoded.  Escapes producing
surrogate halves are out of scope (never produced by `JSON.stringify`
for these objects). -/
def parseJSONStringBody : Str → Option (Str × Str)
  | [] => none
  | c :: rest =>
    if c = '"' then some ([], rest)
    else if c = '\\' then
      match rest with
      | [] => none
      | e :: rest2 =>
        if e = '"' then (parseJSONStringBody rest2).map (fun p => ('"' :: p.1, p.2))
        else if e = '\\' then (parseJSONStringBody rest2).map (fun p => ('\\' :: p.1, p.2))
        else if e = '/' then (parseJSONStringBody rest2).map (fun p => ('/' :: p.1, p.2))
        else if e = 'b' then (parseJSONStringBody rest2).map (fun p => ('\x08' :: p.1, p.2))
        else if e = 't' then (parseJSONStringBody rest2).map (fun p => ('\t' :: p.1, p.2))
        else if e = 'n' then (parseJSONStringBody rest2).map (fun p => ('\n' :: p.1, p.2))
        else if e = 'f' then (parseJSONStringBody rest2).map (fun p => ('\x0c' :: p.1, p.2))
        else if e = 'r' then (parseJSONStringBody rest2).map (fun p => ('\r' :: p.1, p.2))
        else if e = 'u' then
          match rest2 with
          | h1 :: h2 :: h3 :: h4 :: rest3 =>
            match hexCharVal h1, hexCharVal h2, hexCharVal h3, hexCharVal h4 with
            | some a, some b, some c2, some d =>
              let n := ((a * 16 + b) * 16 + c2) * 16 + d
              if n < 55296 then
                (parseJSONStringBody rest3).map (fun p => (Char.ofNat n :: p.1, p.2))
              else none
            | _, _, _, _ => none
          | _ => none
        else none
    else (parseJSONStringBody rest).map (fun p => (c :: p.1, p.2))

/-- Consume an exact literal from the front of the input. -/
def dropLit : Str → Str → Option Str
  | [], s => some s
  | _ :: _, [] => none
  | c :: cs, d :: ds => if c = d then dropLit cs ds else none

/-- Modelled from the spec: a full JSON string literal, opening quote
included. -/
def parseJSONString : Str → Option (Str × Str)
  | '"' :: rest => parseJSONStringBody rest
  | _ => none

/-- Modelled from the spec: `JSON.parse` reading of one highlight-rule
object of the schema `JSON.stringify` emits. -/
def parseRuleObject (s : Str) : Option (HighlightRule × Str) := do
  let s1 ← dropLit ('\x7b' :: "\"id\":".data) s
  let (idv, s2) ← parseJSONString s1
  let s3 ← dropLit (",\"word\":".data) s2
  let (wordv, s4) ← parseJSONString s3
  let s5 ← dropLit (",\"color\":".data) s4
  let (colorv, s6) ← parseJSONString s5
  let s7 ← dropLit ['\x7d'] s6
  some (⟨idv, wordv, colorv⟩, s7)

/-- Modelled from the spec: the remaining elements of a JSON array of
highlight-rule objects (`,` separated, `]` terminated).  The fuel bounds
the number of elements; callers pass the remaining input length, which
always suffices since every element consumes input. -/
def parseMoreRules : Nat → Str → Option (List HighlightRule × Str)
  | _, ']' :: rest => some ([], rest)
  | Nat.succ n, ',' :: rest => do
    let (r, s1) ← parseRuleObject rest
    let (rs, s2) ← parseMoreRules n s1
    some (r :: rs, s2)
  | _, _ => none

/-- Modelled from the spec: `JSON.parse` specialised to the
highlight-rule arrays `JSON.stringify` produces, succeeding only when the
whole input is consumed. -/
def parseRulesJSON (s : Str) : Option (List HighlightRule) :=
  match s with
  | '[' :: rest =>
    if rest = [']'] then some []
    else
      match parseRuleObject rest with
      | none => none
      | some (r, s1) =>
        match parseMoreRules s1.length s1 with
        | none => none
        | some (rs, s2) => if s2 = [] then some (r :: rs) else none
  | _ => none

/-- The load-on-mount logic for `highlight_rules` (`useSettings` lines
92-99): a stored non-empty (truthy) string is parsed as JSON, keeping the
initial empty list when parsing fails. -/
def loadHighlightRules (saved : Option Str) : List HighlightRule :=
  match saved with
  | none => []
  | some s =>
    if s.isEmpty then []
    else
      match parseRulesJSON s with
      | some rs => rs
      | none => []

/-- Decimal rendering of `transcripts.length` spliced into the PDF
template. -/
def natToStr (n : Nat) : Str := (Nat.repr n).data

/-- One `div.transcript` block of the PDF template (`exportUtils` lines
217-222), including the template literal's newlines and indentation. -/
def pdfTranscriptDiv (highlightRules : List HighlightRule)
    (partialMatchHighlight : Bool) (item : TranscriptItem) : Str :=
  "\n        <div class=\"transcript\">\n          <div class=\"timestamp\">\u00f0\u0178\u2022\u2019 ".data
  ++ item.timestamp ++
  "</div>\n          <div class=\"text\">".data
  ++ applyHighlightsToHTML item.text highlightRules partialMatchHighlight ++
  "</div>\n        </div>\n      ".data

/-- The full HTML document written to the print window by `exportAsPDF`
(`exportUtils` lines 151-225). -/
def buildPDFHTML (filename confirmedTitle dateLabel currentDate totalLabel : Str)
    (transcripts : List TranscriptItem) (highlightRules : List HighlightRule)
    (partialMatchHighlight : Bool) : Str :=
  "\n    <!DOCTYPE html>\n    <html lang=\"en\">\n    <head>\n      <meta charset=\"utf-8\">\n      <title>".data
  ++ filename ++
  "</title>\n      <style>\n        @page \x7b\n          margin: 2cm;\n        \x7d\n        body \x7b\n          font-family: \x27Segoe UI\x27, Tahoma, Geneva, Verdana, sans-serif;\n          line-height: 1.6;\n          color: #333;\n          max-width: 800px;\n          margin: 0 auto;\n          padding: 20px;\n        \x7d\n        h1 \x7b\n          color: #2196F3;\n          border-bottom: 3px solid #2196F3;\n          padding-bottom: 10px;\n          margin-bottom: 30px;\n          font-size: 24px;\n        \x7d\n        .meta \x7b\n          color: #666;\n          font-size: 13px;\n          margin-bottom: 30px;\n        \x7d\n        .transcript \x7b\n          margin-bottom: 25px;\n          padding: 15px;\n          border-left: 4px solid #2196F3;\n          background-color: #f5f5f5;\n          page-break-inside: avoid;\n        \x7d\n        .timestamp \x7b\n          color: #2196F3;\n          font-weight: 600;\n          font-size: 13px;\n          margin-bottom: 8px;\n        \x7d\n        .text \x7b\n          font-size: 14px;\n          line-height: 1.8;\n        \x7d\n        /* Print-specific styles to ensure colors show */\n        @media print \x7b\n          body \x7b\n            padding: 0;\n          \x7d\n          * \x7b\n            -webkit-print-color-adjust: exact !important;\n            print-color-adjust: exact !important;\n            color-adjust: exact !important;\n          \x7d\n        \x7d\n      </style>\n    </head>\n    <body>\n      <h1>".data
  ++ confirmedTitle ++
  "</h1>\n      <div class=\"meta\">\n        <strong>".data
  ++ dateLabel ++
  ":</strong> ".data
  ++ currentDate ++
  "<br>\n        <strong>".data
  ++ totalLabel ++
  ":</strong> ".data
  ++ natToStr transcripts.length ++
  "\n      </div>\n      ".data
  ++ (transcripts.map (pdfTranscriptDiv highlightRules partialMatchHighlight)).flatten ++
  "\n    </body>\n    </html>\n  ".data

/-- The externally visible actions `exportAsPDF` performs on the print
window it opened. -/
inductive PDFAction where
  | documentWrite (html : Str)
  | documentClose
  | registerOnload
deriving DecidableEq, Repr

/-- `exportAsPDF` (`exportUtils` lines 119-241): the result of
`window.open` is passed in (`none` models a blocked popup returning
`null`), as are the wall-clock strings.  Returns the boolean result
together with the actions performed on the print window. -/
def exportAsPDF (printWindow : Option Unit) (transcripts : List TranscriptItem)
    (_title confirmedTitle dateLabel totalLabel : Str)
    (highlightRules : List HighlightRule) (partialMatchHighlight : Bool)
    (currentDate timestampStr : Str) : Bool × List PDFAction :=
  match printWindow with
  | none => (false, [])
  | some _ =>
    let filename := "comLedger_".data ++ timestampStr
    let htmlContent := buildPDFHTML filename confirmedTitle dateLabel currentDate
      totalLabel transcripts highlightRules partialMatchHighlight
    (true, [.documentWrite htmlContent, .documentClose, .registerOnload])

/-! ## Basic properties of the tokenizer and the two rule loops -/

theorem tokenize_flatten : ∀ s : Str, (tokenize s).flatten = s
  | [] => rfl
  | c :: cs => by
    have ih := tokenize_flatten cs
    unfold tokenize
    cases h : tokenize cs with
    | nil =>
      rw [h] at ih
      simp only [List.flatten_nil] at ih
      simp [← ih]
    | cons t ts =>
      rw [h] at ih
      split
      next heq => simp at heq
      next t2 ts2 heq =>
        injection heq with h1 h2
        subst h1
        subst h2
        split <;> simp [← ih]

theorem tokenize_eq_nil {s : Str} (h : tokenize s = []) : s = [] := by
  have := tokenize_flatten s
  rw [h] at this
  simpa using this.symm

theorem renderNode_applyHighlightsLoop (pm : Bool) (token : Str) :
    ∀ rules : List HighlightRule,
      renderNode (applyHighlightsLoop pm token rules) =
        applyHighlightsToHTMLLoop pm token rules
  | [] => rfl
  | rule :: rest => by
    simp only [applyHighlightsLoop, applyHighlightsToHTMLLoop]
    split
    · rfl
    · split
      · rfl
      · exact renderNode_applyHighlightsLoop pm token rest

theorem tokenText_applyHighlightsLoop (pm : Bool) (token : Str) :
    ∀ rules : List HighlightRule,
      (applyHighlightsLoop pm token rules).tokenText = token
  | [] => rfl
  | rule :: rest => by
    simp only [applyHighlightsLoop]
    split
    · rfl
    · split
      · rfl
      · exact tokenText_applyHighlightsLoop pm token rest

theorem spanHTML_length_lt (token color textColor : Str) (p : Bool) :
    token.length < (spanHTML token color textColor p).length := by
  unfold spanHTML
  simp only [List.length_append, List.length_cons, List.length_nil]
  omega

theorem spanHTML_ne_token (token color textColor : Str) (p : Bool) :
    spanHTML token color textColor p ≠ token := by
  intro h
  have := spanHTML_length_lt token color textColor p
  rw [h] at this
  omega

/-- C2: for every input text, rule list and partial-match flag, the React
rendering `applyHighlights` and the HTML-string rendering
`applyHighlightsToHTML` implement the same matching logic: the HTML
output is exactly the React part list rendered node by node (same
tokenization, same highlighted tokens, same winning rule and colour, and
the same exact/partial classification) and concatenated. -/
theorem highlight_renderings_agree (text : Str) (rules : List HighlightRule)
    (pm : Bool) :
    applyHighlightsToHTML text rules pm =
      ((applyHighlights text rules pm).map renderNode).flatten := by
  unfold applyHighlights applyHighlightsToHTML
  by_cases hr : rules.length = 0
  · simp [hr, renderNode]
  · simp only [hr, if_false]
    cases ht : tokenize text with
    | nil =>
      have hnil : text = [] := tokenize_eq_nil ht
      simp [hnil, renderNode]
    | cons t ts =>
      rw [if_pos (by simp)]
      rw [List.map_map]
      congr 1
      apply List.map_congr_left
      intro token _
      by_cases hw : isWhitespaceToken token
      · simp [hw, renderNode]
      · simp [hw, renderNode_applyHighlightsLoop]

/-- C4: tokenization into maximal runs of non-whitespace and whitespace
concatenates back to the original text; every React part carries its
token unchanged, so the parts with all span markup stripped concatenate
back to the input; and with an empty rule list `applyHighlightsToHTML`
returns the input exactly. -/
theorem whitespace_fidelity (text : Str) (rules : List HighlightRule)
    (pm : Bool) :
    (tokenize text).flatten = text
    ∧ ((applyHighlights text rules pm).map ReactNode.tokenText).flatten = text
    ∧ applyHighlightsToHTML text [] pm = text := by
  refine ⟨tokenize_flatten text, ?_, by simp [applyHighlightsToHTML]⟩
  unfold applyHighlights
  by_cases hr : rules.length = 0
  · simp [hr, ReactNode.tokenText]
  · simp only [hr, if_false]
    cases ht : tokenize text with
    | nil =>
      have hnil : text = [] := tokenize_eq_nil ht
      simp [hnil, ReactNode.tokenText]
    | cons t ts =>
      rw [if_pos (by simp)]
      rw [List.map_map]
      have hmap : ∀ l : List Str, (l.map (ReactNode.tokenText ∘ fun token =>
          if isWhitespaceToken token then ReactNode.text token
          else applyHighlightsLoop pm token rules)) = l := by
        intro l
        induction l with
        | nil => rfl
        | cons x xs ihx =>
          simp only [List.map_cons, ihx, Function.comp_apply]
          by_cases hw : isWhitespaceToken x
          · simp [hw, ReactNode.tokenText]
          · simp [hw, tokenText_applyHighlightsLoop]
      rw [hmap, ← ht, tokenize_flatten]

/-- C1: a non-whitespace token is highlighted by a rule exactly when the
lowercased token equals the lowercased rule word, or partial matching is
enabled and the lowercased rule word is a substring of the lowercased
token; identically in the React loop and in the HTML loop. -/
theorem highlight_match_condition (pm : Bool) (token : Str)
    (rule : HighlightRule) (_hw : isWhitespaceToken token = false) :
    ((applyHighlightsLoop pm token [rule]).isHighlight = true ↔
      (token.map Char.toLower = rule.word.map Char.toLower ∨
        (pm = true ∧ rule.word.map Char.toLower <:+: token.map Char.toLower)))
    ∧ (applyHighlightsToHTMLLoop pm token [rule] ≠ token ↔
      (token.map Char.toLower = rule.word.map Char.toLower ∨
        (pm = true ∧ rule.word.map Char.toLower <:+: token.map Char.toLower))) := by
  constructor
  · simp only [applyHighlightsLoop]
    split
    next h => simp [ReactNode.isHighlight, h]
    next h =>
      split
      next h2 =>
        simp only [ReactNode.isHighlight, true_iff]
        right
        simpa [jsIncludes, Bool.and_eq_true, decide_eq_true_iff] using h2
      next h2 =>
        simp only [applyHighlightsLoop, ReactNode.isHighlight]
        constructor
        · intro hx
          exact absurd hx (by simp)
        · rintro (hc | ⟨hpm, hinf⟩)
          · exact absurd hc h
          · exact absurd (by simp [jsIncludes, hpm, hinf]) h2
  · simp only [applyHighlightsToHTMLLoop]
    split
    next h =>
      exact iff_of_true (spanHTML_ne_token _ _ _ _) (Or.inl h)
    next h =>
      split
      next h2 =>
        refine iff_of_true (spanHTML_ne_token _ _ _ _) (Or.inr ?_)
        simpa [jsIncludes, Bool.and_eq_true, decide_eq_true_iff] using h2
      next h2 =>
        constructor
        · intro hx
          exact absurd rfl hx
        · rintro (hc | ⟨hpm, hinf⟩)
          · exact absurd hc h
          · exact absurd (by simp [jsIncludes, hpm, hinf]) h2

/-- Witness for `highlight_match_condition` at a concrete token and rule. -/
theorem highlight_match_condition_witness :
    isWhitespaceToken "Koiralle".data = false
    ∧ ((applyHighlightsLoop true "Koiralle".data
          [⟨"1".data, "koira".data, "#FFEB3B".data⟩]).isHighlight = true ↔
        ("Koiralle".data.map Char.toLower = "koira".data.map Char.toLower ∨
          (true = true ∧ "koira".data.map Char.toLower <:+:
            "Koiralle".data.map Char.toLower))) :=
  ⟨by decide,
    (highlight_match_condition true "Koiralle".data
      ⟨"1".data, "koira".data, "#FFEB3B".data⟩ (by decide)).1⟩

/-- C3: the first matching rule wins — whenever the head rule matches a
token (exactly or, with partial matching on, as a substring), both loops
highlight with that rule's colour regardless of the remaining rules (in
particular a later exact match cannot override an earlier partial match) —
and every token is wrapped in at most one highlight span: the number of
highlight parts never exceeds the number of non-whitespace tokens. -/
theorem first_rule_wins :
    (∀ (pm : Bool) (token : Str) (rule : HighlightRule)
        (rest : List HighlightRule),
      (token.map Char.toLower = rule.word.map Char.toLower ∨
        (pm = true ∧ rule.word.map Char.toLower <:+: token.map Char.toLower)) →
      applyHighlightsLoop pm token (rule :: rest) =
        .highlightSpan token rule.color (textColorFor rule.color)
          (if token.map Char.toLower = rule.word.map Char.toLower then false else true)
      ∧ applyHighlightsToHTMLLoop pm token (rule :: rest) =
        spanHTML token rule.color (textColorFor rule.color)
          (if token.map Char.toLower = rule.word.map Char.toLower then false else true))
    ∧ (∀ (text : Str) (rules : List HighlightRule) (pm : Bool),
        (applyHighlights text rules pm).countP ReactNode.isHighlight ≤
          ((tokenize text).filter (fun t => !isWhitespaceToken t)).length) := by
  constructor
  · intro pm token rule rest hmatch
    by_cases h : token.map Char.toLower = rule.word.map Char.toLower
    · refine ⟨?_, ?_⟩ <;>
        simp only [applyHighlightsLoop, applyHighlightsToHTMLLoop] <;>
        simp [h]
    · have h2 : (pm && jsIncludes (token.map Char.toLower)
          (rule.word.map Char.toLower)) = true := by
        rcases hmatch with hc | ⟨hpm, hinf⟩
        · exact absurd hc h
        · simp [jsIncludes, hpm, hinf]
      refine ⟨?_, ?_⟩ <;>
        simp only [applyHighlightsLoop, applyHighlightsToHTMLLoop] <;>
        simp [h, h2]
  · intro text rules pm
    unfold applyHighlights
    by_cases hr : rules.length = 0
    · simp [hr, ReactNode.isHighlight]
    · simp only [hr, if_false]
      cases ht : tokenize text with
      | nil => simp [ReactNode.isHighlight]
      | cons t ts =>
        rw [if_pos (by simp)]
        have key : ∀ l : List Str,
            (l.map (fun token => if isWhitespaceToken token
                then ReactNode.text token
                else applyHighlightsLoop pm token rules)).countP
              ReactNode.isHighlight ≤
            (l.filter (fun t => !isWhitespaceToken t)).length := by
          intro l
          induction l with
          | nil => simp
          | cons x xs ihx =>
            by_cases hw : isWhitespaceToken x
            · simpa [hw, List.countP_cons, ReactNode.isHighlight] using ihx
            · have hb : (if ReactNode.isHighlight
                  (applyHighlightsLoop pm x rules) = true then 1 else 0) ≤ 1 := by
                split <;> omega
              simp [hw, List.countP_cons, List.filter_cons] at ihx ⊢
              omega
        exact key (t :: ts)

/-- Witness for `first_rule_wins`: an earlier partial match beats a later
exact match, and the highlight count is bounded on a concrete text. -/
theorem first_rule_wins_witness :
    (applyHighlightsLoop true "Koiralle".data
        (⟨"1".data, "koira".data, "#FFEB3B".data⟩ ::
          [⟨"2".data, "koiralle".data, "#4CAF50".data⟩]) =
      .highlightSpan "Koiralle".data "#FFEB3B".data
        (textColorFor "#FFEB3B".data)
        (if "Koiralle".data.map Char.toLower = "koira".data.map Char.toLower
          then false else true))
    ∧ (applyHighlights "koira ja kissa".data
          [⟨"1".data, "koira".data, "#FFEB3B".data⟩] true).countP
        ReactNode.isHighlight ≤
      ((tokenize "koira ja kissa".data).filter
        (fun t => !isWhitespaceToken t)).length :=
  ⟨(first_rule_wins.1 true "Koiralle".data
      ⟨"1".data, "koira".data, "#FFEB3B".data⟩
      [⟨"2".data, "koiralle".data, "#4CAF50".data⟩]
      (Or.inr ⟨rfl, by decide⟩)).1,
    first_rule_wins.2 "koira ja kissa".data
      [⟨"1".data, "koira".data, "#FFEB3B".data⟩] true⟩

/-- C5: whenever the React loop highlights a token, the winning rule is in
the list, the colours are the rule's, and the partial flag (which attaches
the `˚` indicator span) is set exactly when the rule matched partially —
the lowercased rule word is a substring of, but not equal to, the
lowercased token; the HTML loop emits the span markup with that same
flag. -/
theorem partial_indicator_iff :
    ∀ (pm : Bool) (token : Str) (rules : List HighlightRule)
      (color textColor : Str) (p : Bool),
      applyHighlightsLoop pm token rules =
        .highlightSpan token color textColor p →
      ∃ r ∈ rules, color = r.color ∧ textColor = textColorFor r.color
        ∧ (p = true ↔ (pm = true
            ∧ r.word.map Char.toLower <:+: token.map Char.toLower
            ∧ token.map Char.toLower ≠ r.word.map Char.toLower))
        ∧ (p = false ↔ token.map Char.toLower = r.word.map Char.toLower)
        ∧ applyHighlightsToHTMLLoop pm token rules =
            spanHTML token r.color (textColorFor r.color) p := by
  intro pm token rules
  induction rules with
  | nil =>
    intro color tc p h
    exact absurd h (by simp [applyHighlightsLoop])
  | cons rule rest ih =>
    intro color tc p h
    simp only [applyHighlightsLoop] at h
    by_cases h1 : token.map Char.toLower = rule.word.map Char.toLower
    · rw [if_pos h1] at h
      injection h with e0 e1 e2 e3
      subst e1
      subst e2
      subst e3
      refine ⟨rule, by simp, rfl, rfl, ?_, by simp [h1], ?_⟩
      · simp [h1]
      · simp only [applyHighlightsToHTMLLoop]
        rw [if_pos h1]
    · rw [if_neg h1] at h
      by_cases h2 : (pm && jsIncludes (token.map Char.toLower)
          (rule.word.map Char.toLower)) = true
      · rw [if_pos h2] at h
        injection h with e0 e1 e2 e3
        subst e1
        subst e2
        subst e3
        obtain ⟨hpm, hinf⟩ : pm = true ∧
            rule.word.map Char.toLower <:+: token.map Char.toLower := by
          simpa [jsIncludes, Bool.and_eq_true, decide_eq_true_iff] using h2
        refine ⟨rule, by simp, rfl, rfl, ?_, by simp [h1], ?_⟩
        · simp [hpm, hinf, h1]
        · simp only [applyHighlightsToHTMLLoop]
          rw [if_neg h1, if_pos h2]
      · rw [if_neg h2] at h
        obtain ⟨r, hr, hcol, htc, hp1, hp0, hhtml⟩ := ih color tc p h
        refine ⟨r, List.mem_cons_of_mem _ hr, hcol, htc, hp1, hp0, ?_⟩
        simp only [applyHighlightsToHTMLLoop]
        rw [if_neg h1, if_neg h2]
        exact hhtml

/-- Witness for `partial_indicator_iff` at a concrete partial match. -/
theorem partial_indicator_iff_witness :
    ∃ r ∈ [(⟨"1".data, "koira".data, "#FFEB3B".data⟩ : HighlightRule)],
      "#FFEB3B".data = r.color ∧ "#000000".data = textColorFor r.color
      ∧ (true = true ↔ (true = true
          ∧ r.word.map Char.toLower <:+: "Koiralle".data.map Char.toLower
          ∧ "Koiralle".data.map Char.toLower ≠ r.word.map Char.toLower))
      ∧ (true = false ↔
          "Koiralle".data.map Char.toLower = r.word.map Char.toLower)
      ∧ applyHighlightsToHTMLLoop true "Koiralle".data
            [⟨"1".data, "koira".data, "#FFEB3B".data⟩] =
          spanHTML "Koiralle".data r.color (textColorFor r.color) true :=
  partial_indicator_iff true "Koiralle".data
    [⟨"1".data, "koira".data, "#FFEB3B".data⟩]
    "#FFEB3B".data "#000000".data true (by decide)

/-- C6: the CSV content built by `exportAsCSV` is the header line
`Timestamp,Text` followed by one line per transcript item in list order —
the item's timestamp, a comma, and the item's text wrapped in double
quotes with embedded quotes doubled — prefixed with the UTF-8 BOM. -/
theorem csv_content_matches_spec (transcripts : List TranscriptItem) :
    exportAsCSVContent transcripts = exportAsCSVContentSpec transcripts := by
  have hhead : joinJS [','] ["Timestamp".data, "Text".data] =
      "Timestamp,Text".data := by decide
  have hrow : ∀ item : TranscriptItem,
      joinJS [','] [item.timestamp, '"' :: csvEscapeQuotes item.text ++ ['"']] =
        item.timestamp ++ ',' :: '"' :: csvEscapeQuotes item.text ++ ['"'] := by
    intro item
    simp [joinJS]
  unfold exportAsCSVContent exportAsCSVContentSpec
  simp only [List.map_map, Function.comp_def, hhead, hrow]

/-- C9: in every reachable state of the confirmed-transcript list, the
stored texts are pairwise distinct — both appending paths refuse an entry
whose text already occurs, and clearing empties the list. -/
theorem transcript_texts_nodup (s : List TranscriptEntry)
    (h : TranscriptsReachable s) : (s.map (fun t => t.text)).Nodup := by
  induction h with
  | init => simp
  | committed id text timestamp h ih =>
    unfold commitTranscript
    split
    · exact ih
    next hany =>
      rw [List.map_append, List.nodup_append]
      refine ⟨ih, by simp, ?_⟩
      intro a ha hb
      simp only [List.map_cons, List.map_nil, List.mem_singleton] at hb
      subst hb
      apply hany
      rw [List.any_eq_true]
      obtain ⟨t, ht, htext⟩ := List.mem_map.mp ha
      exact ⟨t, ht, by simp [htext]⟩
  | disconnected pendingText id timestamp h ih =>
    unfold saveOnDisconnect
    split
    · split
      · exact ih
      next hany =>
        rw [List.map_append, List.nodup_append]
        refine ⟨ih, by simp, ?_⟩
        intro a ha hb
        simp only [List.map_cons, List.map_nil, List.mem_singleton] at hb
        subst hb
        apply hany
        rw [List.any_eq_true]
        obtain ⟨t, ht, htext⟩ := List.mem_map.mp ha
        exact ⟨t, ht, by simp [htext]⟩
    · exact ih
  | cleared h ih => simp [clearTranscripts]

/-- Witness for `transcript_texts_nodup`: committing the same text twice
still yields pairwise-distinct texts. -/
theorem transcript_texts_nodup_witness :
    ((commitTranscript
        (commitTranscript [] "1".data "hei maailma".data "10:00:00".data)
        "2".data "hei maailma".data "10:00:05".data).map
      (fun t => t.text)).Nodup :=
  transcript_texts_nodup _
    (.committed "2".data "hei maailma".data "10:00:05".data
      (.committed "1".data "hei maailma".data "10:00:00".data .init))

/-- C10: `exportAsPDF` returns `false` exactly when the print window
cannot be opened, performing no action on any window in that case, and
returns `true` in every other case. -/
theorem exportAsPDF_false_iff_blocked (printWindow : Option Unit)
    (transcripts : List TranscriptItem)
    (title confirmedTitle dateLabel totalLabel : Str)
    (rules : List HighlightRule) (pm : Bool) (currentDate timestampStr : Str) :
    ((exportAsPDF printWindow transcripts title confirmedTitle dateLabel
        totalLabel rules pm currentDate timestampStr).1 = false ↔
      printWindow = none)
    ∧ (printWindow = none →
        exportAsPDF printWindow transcripts title confirmedTitle dateLabel
          totalLabel rules pm currentDate timestampStr = (false, []))
    ∧ (printWindow ≠ none →
        (exportAsPDF printWindow transcripts title confirmedTitle dateLabel
          totalLabel rules pm currentDate timestampStr).1 = true) := by
  cases printWindow <;> simp [exportAsPDF]

/-- Witness for `exportAsPDF_false_iff_blocked` at a blocked window. -/
theorem exportAsPDF_false_iff_blocked_witness :
    exportAsPDF none [] ([] : Str) ([] : Str) ([] : Str) ([] : Str) [] true
      ([] : Str) ([] : Str) = (false, []) :=
  (exportAsPDF_false_iff_blocked none [] [] [] [] [] [] true [] []).2.1 rfl

/-- C8 counterexample: with partial matching enabled and the rule list
containing an empty-word rule, the token `koira` is highlighted by the
earlier exact rule with the partial flag off — so not every
non-whitespace token is highlighted as a partial match. -/
theorem empty_word_rule_counterexample :
    (⟨"2".data, [], "#4CAF50".data⟩ : HighlightRule).word = []
    ∧ applyHighlights "koira".data
        [⟨"1".data, "koira".data, "#FFEB3B".data⟩,
          ⟨"2".data, [], "#4CAF50".data⟩] true =
      [.highlightSpan "koira".data "#FFEB3B".data "#000000".data false] :=
  ⟨rfl, by decide⟩

/-- C8 (amended): with partial matching enabled, a rule list containing a
rule whose word is the empty string highlights every non-empty token
(whitespace-only rule words are trimmed to the empty word by
`addHighlightRule`); when the empty-word rule is first, the highlight is a
partial match. -/
theorem empty_word_rule_highlights_all (token : Str)
    (rules : List HighlightRule) (i c w : Str)
    (rest prev : List HighlightRule)
    (hne : token ≠ []) (hmem : ∃ r ∈ rules, r.word = [])
    (hws : w.all isJSWhitespace = true) :
    ((applyHighlightsLoop true token rules).isHighlight = true
      ∧ applyHighlightsToHTMLLoop true token rules ≠ token)
    ∧ applyHighlightsLoop true token (⟨i, [], c⟩ :: rest) =
        .highlightSpan token c (textColorFor c) true
    ∧ (⟨i, ([] : Str), c⟩ : HighlightRule) ∈ addHighlightRule prev i w c := by
  have hLne : token.map Char.toLower ≠ [] := by
    intro h0
    exact hne (List.map_eq_nil_iff.mp h0)
  refine ⟨?_, ?_, ?_⟩
  · induction rules with
    | nil =>
      obtain ⟨r, hr, _⟩ := hmem
      exact absurd hr (List.not_mem_nil r)
    | cons rule rest2 ih =>
      by_cases h1 : token.map Char.toLower = rule.word.map Char.toLower
      · constructor
        · simp only [applyHighlightsLoop]
          rw [if_pos h1]
          rfl
        · simp only [applyHighlightsToHTMLLoop]
          rw [if_pos h1]
          exact spanHTML_ne_token _ _ _ _
      · by_cases h2 : (true && jsIncludes (token.map Char.toLower)
            (rule.word.map Char.toLower)) = true
        · constructor
          · simp only [applyHighlightsLoop]
            rw [if_neg h1, if_pos h2]
            rfl
          · simp only [applyHighlightsToHTMLLoop]
            rw [if_neg h1, if_pos h2]
            exact spanHTML_ne_token _ _ _ _
        · have hword : rule.word ≠ [] := by
            intro hw0
            apply h2
            simp [hw0, jsIncludes]
          have hmem2 : ∃ r ∈ rest2, r.word = [] := by
            obtain ⟨r, hr, hrw⟩ := hmem
            rcases List.mem_cons.mp hr with hre | hrr
            · exact absurd (hre ▸ hrw) hword
            · exact ⟨r, hrr, hrw⟩
          obtain ⟨ihA, ihB⟩ := ih hmem2
          constructor
          · simp only [applyHighlightsLoop]
            rw [if_neg h1, if_neg h2]
            exact ihA
          · simp only [applyHighlightsToHTMLLoop]
            rw [if_neg h1, if_neg h2]
            exact ihB
  · have h1 : token.map Char.toLower ≠
        (⟨i, [], c⟩ : HighlightRule).word.map Char.toLower := by
      simpa using hLne
    have h2 : (true && jsIncludes (token.map Char.toLower)
        ((⟨i, [], c⟩ : HighlightRule).word.map Char.toLower)) = true := by
      simp [jsIncludes]
    simp only [applyHighlightsLoop]
    rw [if_neg h1, if_pos h2]
  · have htrim : jsTrim w = [] := by
      have hdrop : w.dropWhile isJSWhitespace = [] := by
        rw [List.dropWhile_eq_nil_iff]
        intro x hx
        exact List.all_eq_true.mp hws x hx
      simp [jsTrim, hdrop]
    simp [addHighlightRule, htrim]

/-- Witness for `empty_word_rule_highlights_all` at concrete inputs. -/
theorem empty_word_rule_highlights_all_witness :
    ((applyHighlightsLoop true "kissa".data
        [⟨"1".data, "koira".data, "#FFEB3B".data⟩,
          ⟨"2".data, [], "#4CAF50".data⟩]).isHighlight = true
      ∧ applyHighlightsToHTMLLoop true "kissa".data
          [⟨"1".data, "koira".data, "#FFEB3B".data⟩,
            ⟨"2".data, [], "#4CAF50".data⟩] ≠ "kissa".data)
    ∧ applyHighlightsLoop true "kissa".data
        (⟨"2".data, [], "#4CAF50".data⟩ ::
          [⟨"1".data, "koira".data, "#FFEB3B".data⟩]) =
        .highlightSpan "kissa".data "#4CAF50".data
          (textColorFor "#4CAF50".data) true
    ∧ (⟨"2".data, ([] : Str), "#4CAF50".data⟩ : HighlightRule) ∈
        addHighlightRule [] "2".data "   ".data "#4CAF50".data :=
  empty_word_rule_highlights_all "kissa".data
    [⟨"1".data, "koira".data, "#FFEB3B".data⟩, ⟨"2".data, [], "#4CAF50".data⟩]
    "2".data "#4CAF50".data "   ".data
    [⟨"1".data, "koira".data, "#FFEB3B".data⟩] []
    (by decide) ⟨⟨"2".data, [], "#4CAF50".data⟩, by decide, rfl⟩ (by decide)

/-! ## Round-trip of the JSON serialisation of highlight rules -/

theorem hexCharVal_hexDigitChar (d : Nat) (hd : d < 16) :
    hexCharVal (hexDigitChar d) = some d := by
  interval_cases d <;> decide

theorem parseJSONStringBody_escape :
    ∀ (s rest : Str),
      parseJSONStringBody (s.flatMap escapeJSONChar ++ '"' :: rest) =
        some (s, rest)
  | [], rest => by
    rw [List.flatMap_nil, List.nil_append, parseJSONStringBody.eq_def]
    simp
  | c :: s, rest => by
    have ih := parseJSONStringBody_escape s rest
    by_cases h1 : c = '"'
    · subst h1
      simp only [List.flatMap_cons, escapeJSONChar, if_pos rfl,
        List.cons_append, List.append_assoc]
      rw [parseJSONStringBody.eq_def]
      simp [ih]
    · by_cases h2 : c = '\\'
      · subst h2
        simp [escapeJSONChar]
        rw [parseJSONStringBody.eq_def]
        simp [ih]
      · by_cases h3 : c = '\x08'
        · subst h3
          simp [escapeJSONChar]
          rw [parseJSONStringBody.eq_def]
          simp [ih]
        · by_cases h4 : c = '\t'
          · subst h4
            simp [escapeJSONChar]
            rw [parseJSONStringBody.eq_def]
            simp [ih]
          · by_cases h5 : c = '\n'
            · subst h5
              simp [escapeJSONChar]
              rw [parseJSONStringBody.eq_def]
              simp [ih]
            · by_cases h6 : c = '\x0c'
              · subst h6
                simp [escapeJSONChar]
                rw [parseJSONStringBody.eq_def]
                simp [ih]
              · by_cases h7 : c = '\r'
                · subst h7
                  simp [escapeJSONChar]
                  rw [parseJSONStringBody.eq_def]
                  simp [ih]
                · by_cases h8 : c.toNat < 32
                  · have hdiv : c.toNat / 16 < 16 := by omega
                    have hmod : c.toNat % 16 < 16 := Nat.mod_lt _ (by omega)
                    have hv1 := hexCharVal_hexDigitChar _ hdiv
                    have hv2 := hexCharVal_hexDigitChar _ hmod
                    have hdm : c.toNat / 16 * 16 + c.toNat % 16 = c.toNat := by
                      omega
                    have hlt : c.toNat < 55296 := by omega
                    have h0 : hexCharVal '0' = some 0 := by decide
                    simp [escapeJSONChar, h1, h2, h3, h4, h5, h6, h7, h8]
                    rw [parseJSONStringBody.eq_def]
                    simp [h0, hv1, hv2, hdm, hlt, Char.ofNat_toNat, ih]
                  · simp [escapeJSONChar, h1, h2, h3, h4, h5, h6, h7, h8]
                    rw [parseJSONStringBody.eq_def]
                    simp [h1, h2, ih]

theorem dropLit_append : ∀ (lit rest : Str), dropLit lit (lit ++ rest) = some rest
  | [], rest => by simp [dropLit]
  | c :: cs, rest => by simp [dropLit, dropLit_append cs rest]

theorem parseJSONString_encode (s rest : Str) :
    parseJSONString (jsonStringLit s ++ rest) = some (s, rest) := by
  have hshape : jsonStringLit s ++ rest =
      '"' :: (s.flatMap escapeJSONChar ++ '"' :: rest) := by
    simp [jsonStringLit]
  rw [hshape]
  simp [parseJSONString, parseJSONStringBody_escape]

theorem parseRuleObject_encode (r : HighlightRule) (rest : Str) :
    parseRuleObject (jsonRuleObject r ++ rest) = some (r, rest) := by
  have hshape : jsonRuleObject r ++ rest =
      ('\x7b' :: "\"id\":".data) ++ (jsonStringLit r.id ++
        (",\"word\":".data ++ (jsonStringLit r.word ++
          (",\"color\":".data ++ (jsonStringLit r.color ++
            (['\x7d'] ++ rest)))))) := by
    simp [jsonRuleObject, List.append_assoc]
  rw [hshape]
  simp [parseRuleObject, dropLit, parseJSONString_encode]

theorem parseMoreRules_encode :
    ∀ (rs : List HighlightRule) (n : Nat) (rest : Str), rs.length ≤ n →
      parseMoreRules n
          (rs.flatMap (fun r => ',' :: jsonRuleObject r) ++ ']' :: rest) =
        some (rs, rest)
  | [], n, rest, _ => by
    rw [List.flatMap_nil, List.nil_append]
    cases n <;> rfl
  | r :: rs, n, rest, hn => by
    cases n with
    | zero => exact absurd hn (by simp)
    | succ m =>
      have hm : rs.length ≤ m := by
        simp only [List.length_cons] at hn
        omega
      have ih := parseMoreRules_encode rs m rest hm
      simp only [List.flatMap_cons, List.cons_append, List.append_assoc]
      rw [parseMoreRules.eq_def]
      simp [parseRuleObject_encode, ih]

theorem joinJS_comma_flatMap :
    ∀ (r : HighlightRule) (rs : List HighlightRule),
      joinJS [','] (jsonRuleObject r :: rs.map jsonRuleObject) =
        jsonRuleObject r ++ rs.flatMap (fun x => ',' :: jsonRuleObject x)
  | _, [] => by simp [joinJS]
  | r, r2 :: rs => by
    have ih := joinJS_comma_flatMap r2 rs
    simp only [List.map_cons] at ih ⊢
    rw [joinJS.eq_def]
    simp only []
    rw [ih]
    simp [List.append_assoc]

theorem length_le_flatMap_comma (rs : List HighlightRule) :
    rs.length ≤ (rs.flatMap (fun x => ',' :: jsonRuleObject x)).length := by
  induction rs with
  | nil => simp
  | cons x xs ih =>
    simp only [List.flatMap_cons, List.length_append, List.length_cons]
    omega

theorem parseRulesJSON_stringify (rs : List HighlightRule) :
    parseRulesJSON (stringifyRules rs) = some rs := by
  cases rs with
  | nil => rfl
  | cons r rs2 =>
    have hshape : stringifyRules (r :: rs2) =
        '[' :: (jsonRuleObject r ++
          (rs2.flatMap (fun x => ',' :: jsonRuleObject x) ++
            ']' :: ([] : Str))) := by
      simp [stringifyRules, joinJS_comma_flatMap, List.append_assoc]
    have hne : jsonRuleObject r ++
        (rs2.flatMap (fun x => ',' :: jsonRuleObject x) ++
          ']' :: ([] : Str)) ≠ [']'] := by
      simp [jsonRuleObject]
    have hlen : rs2.length ≤
        (rs2.flatMap (fun x => ',' :: jsonRuleObject x) ++
          ']' :: ([] : Str)).length := by
      have := length_le_flatMap_comma rs2
      simp only [List.length_append, List.length_cons]
      omega
    rw [hshape]
    rw [parseRulesJSON.eq_def]
    simp only []
    rw [if_neg hne, parseRuleObject_encode]
    simp only []
    rw [parseMoreRules_encode rs2 _ [] hlen]
    rfl

/-- C7: every setting managed by `useSettings` round-trips through local
storage: the stored language code, `String(flag)` for the boolean toggles,
the microphone device id, and the JSON-serialised highlight-rule list are
all restored exactly by the load-on-mount logic. -/
theorem settings_roundtrip (lang : UILanguage) (dflt flag : Bool)
    (mic : Str) (rs : List HighlightRule) :
    loadLanguage (some (languageCode lang)) = lang
    ∧ loadBoolSetting dflt (some (jsStringOfBool flag)) = flag
    ∧ loadMicrophoneId (some mic) = mic
    ∧ loadHighlightRules (some (stringifyRules rs)) = rs := by
  refine ⟨?_, ?_, ?_, ?_⟩
  · cases lang <;> rfl
  · cases flag <;> rfl
  · cases mic <;> simp [loadMicrophoneId]
  · have hne : (stringifyRules rs).isEmpty = false := by
      simp [stringifyRules]
    simp [loadHighlightRules, hne, parseRulesJSON_stringify]
